import Mathlib

/-!
Verification of the terrain height-field generation pipeline
(src/generation.py) against its natural-language specification.

The heightmap (a numpy array of shape [width, height]) is embedded as a flat
row-major `List ℚ`: cell (i, j) lives at flat index `i * height + j`, exactly
the order in which `np.ndenumerate` visits the array.  Machine floats are
idealised as rationals; every arithmetic operation of the source is exact on
the values that actually occur (small integer counts, percentiles k/n and
weighted averages with denominators 5, 7 and 10), so no rounding of the
binary64 representation can change a comparison or a `round` result that the
claims depend on.
-/

namespace Terrain

/-- Errors a pipeline run can raise.  `keyError` models a Python `KeyError`
from a dictionary lookup of an absent key, `configError` the explicitly
raised `Exception` for a missing/unset configuration parameter, and
`nameError` a Python `NameError` from an undefined identifier. -/
inductive PyError where
  | keyError : String → PyError
  | configError : String → PyError
  | nameError : String → PyError
deriving DecidableEq

/-- Configuration dictionary of the generation stage.  A field set to `none`
models the key being absent from the dictionary.  For `thresholds` the inner
`Option` distinguishes the key being present but mapped to Python `None`
(`some none`) from being present with an actual list (`some (some ts)`). -/
structure Config where
  seed : Option ℕ
  iterations : Option ℕ
  thresholds : Option (Option (List ℚ))
  erosion : Option ℕ
deriving Repr

/-- Python3 `round`: round to nearest integer, ties to the even integer
(banker's rounding), as applied by `__smooth` to the weighted average. -/
def pyRound (q : ℚ) : ℤ :=
  let f := ⌊q⌋
  let r := q - f
  if r < 1/2 then f
  else if 1/2 < r then f + 1
  else if f % 2 = 0 then f else f + 1

/-- Inner loop of `GenerationStrategy.__calc_groups`: scan the thresholds in
order and return the index of the first threshold strictly above `x`; if no
threshold exceeds `x`, return the number of thresholds (the overflow group). -/
def groupOf (x : ℚ) : List ℚ → ℕ
  | [] => 0
  | t :: ts => if x < t then 0 else groupOf x ts + 1

/-- Embedding of `GenerationStrategy.__calc_groups`.  The source first
evaluates `self.config['thresholds']` (a `KeyError` if the key is absent),
then raises its own `Exception` if the looked-up value is `None`, and
otherwise rewrites every cell to its group index. -/
def calc_groups (cfg : Config) (hm : List ℚ) : Except PyError (List ℚ) :=
  match cfg.thresholds with
  | none => .error (.keyError "thresholds")
  | some none => .error (.configError "The config parameter thresholds must be set.")
  | some (some ts) => .ok (hm.map (fun x => (groupOf x ts : ℚ)))

/-- Loop body of `GenerationStrategy.__calc_percentiles`: walk the
value-sorted list of (position, value) pairs, give the k-th entry (0-based)
the candidate percentile (k+1)/n, but let an entry whose value equals the
previous entry's value inherit the previous entry's percentile. -/
def percentileAssign (n : ℕ) : ℕ → Option ℚ → Option ℚ → List (ℕ × ℚ) → List (ℕ × ℚ)
  | _, _, _, [] => []
  | k, lastP, lastV, e :: rest =>
    let cand : ℚ := (k + 1 : ℚ) / n
    let curr : ℚ := if some e.2 = lastV then lastP.getD cand else cand
    (e.1, curr) :: percentileAssign n (k + 1) (some curr) (some e.2) rest

/-- Embedding of `GenerationStrategy.__calc_percentiles`: sort the
enumerated cells by value with a stable sort (Python `sorted` with
`key = lambda x: x[1]`), assign percentiles along the sorted order, and
write each percentile back at its cell's position. -/
def calc_percentiles (hm : List ℚ) : List ℚ :=
  let arr_as_srtd_lst := hm.enum.mergeSort (fun a b => a.2 ≤ b.2)
  (percentileAssign hm.length 0 none none arr_as_srtd_lst).foldl
    (fun acc e => acc.set e.1 e.2) hm

/-- Bounds test of `GenerationStrategy.__get_neighbors`:
`a >= 0 and a < w and b >= 0 and b < h`. -/
def inBounds (w h : ℕ) (p : ℤ × ℤ) : Bool :=
  decide (0 ≤ p.1) && decide (p.1 < (w : ℤ)) && decide (0 ≤ p.2) && decide (p.2 < (h : ℤ))

/-- Embedding of `GenerationStrategy.__get_neighbors`: the nine weighted
candidate cells of the 3x3 block around `pt` (center weight 2, others 1), in
source order, filtered to those inside the field. -/
def get_neighbors (pt : ℤ × ℤ) (shape : ℕ × ℕ) : List ((ℤ × ℤ) × ℚ) :=
  let x := pt.1
  let y := pt.2
  ([((x-1, y), 1), ((x-1, y-1), 1), ((x-1, y+1), 1),
    ((x, y), 2), ((x, y-1), 1), ((x, y+1), 1),
    ((x+1, y), 1), ((x+1, y-1), 1), ((x+1, y+1), 1)] : List ((ℤ × ℤ) × ℚ)).filter
    (fun e => inBounds shape.1 shape.2 e.1)

/-- Reading `self.heightmap[a][b]` in the flat row-major embedding. -/
def readAt (h : ℕ) (hm : List ℚ) (p : ℤ × ℤ) : ℚ :=
  hm.getD (p.1.toNat * h + p.2.toNat) 0

/-- New value of cell (i, j) in one erosion round of
`GenerationStrategy.__smooth`: the rounded weighted average of the in-bounds
neighbors, all values read from the round's snapshot `hm`. -/
def smoothCell (w h : ℕ) (hm : List ℚ) (i j : ℕ) : ℚ :=
  let neighbors := get_neighbors ((i : ℤ), (j : ℤ)) (w, h)
  let vals := neighbors.map (fun e => readAt h hm e.1 * e.2)
  let sum_weights := (neighbors.map (fun e => e.2)).sum
  (pyRound (vals.sum / sum_weights) : ℚ)

/-- One round of `GenerationStrategy.__smooth`: every cell of the fresh copy
is overwritten with its rounded weighted neighborhood average, reading only
from the field as it was at the start of the round. -/
def smoothRound (w h : ℕ) (hm : List ℚ) : List ℚ :=
  (List.range (w * h)).map (fun idx => smoothCell w h hm (idx / h) (idx % h))

/-- Iterated erosion rounds (the `for m in range(self.config['erosion'])`
loop of `__smooth`). -/
def smoothIter (w h : ℕ) : ℕ → List ℚ → List ℚ
  | 0, hm => hm
  | m + 1, hm => smoothIter w h m (smoothRound w h hm)

/-- Embedding of `GenerationStrategy.__smooth`: a no-op unless the config
contains an erosion round count. -/
def smooth (cfg : Config) (w h : ℕ) (hm : List ℚ) : List ℚ :=
  match cfg.erosion with
  | none => hm
  | some e => smoothIter w h e hm

/-- Embedding of the base-class `GenerationStrategy._generate_raw`:
`np.zeros([width, height])`. -/
def generate_raw_default (w h : ℕ) : List ℚ :=
  List.replicate (w * h) 0

/-- Embedding of `GenerationStrategy.generate`, parameterised by the raw
field the selected strategy produced:
`_generate_raw().__calc_percentiles().__calc_groups().__smooth()`. -/
def generate (cfg : Config) (w h : ℕ) (raw : List ℚ) : Except PyError (List ℚ) :=
  (calc_groups cfg (calc_percentiles raw)).map (smooth cfg w h)

/-- One of the four side comparators `[o.lt, o.le, o.gt, o.ge]` drawn by
`LinearFaultStrategy._generate_raw`. -/
inductive Side where
  | lt
  | le
  | gt
  | ge
deriving DecidableEq, Repr

/-- Application `comp(y, j)` of a drawn comparator. -/
def sideApply : Side → ℚ → ℚ → Bool
  | .lt, a, b => a < b
  | .le, a, b => a ≤ b
  | .gt, a, b => b < a
  | .ge, a, b => b ≤ a

/-- One iteration's worth of randomness in `LinearFaultStrategy`: the two
random points of `__random_straight` and the drawn comparator index. -/
structure Draw where
  x1 : ℚ
  y1 : ℚ
  x2 : ℚ
  y2 : ℚ
  side : Side

/-- Embedding of `LinearFaultStrategy.__random_straight` applied to the two
drawn points.  When the x-coordinates are equal the source evaluates the bare
name `__MODIFIER`, which Python name-mangles to
`_LinearFaultStrategy__MODIFIER`; no local or global of that name exists, so
the lookup raises a `NameError` before any perturbation can happen.
Otherwise the line parameters are returned. -/
def random_straight (d : Draw) : Except PyError (ℚ × ℚ) :=
  if d.x1 = d.x2 then .error (.nameError "_LinearFaultStrategy__MODIFIER")
  else
    let a := (d.y1 - d.y2) / (d.x1 - d.x2)
    .ok (a, d.y1 - a * d.x1)

/-- Body of one iteration of `LinearFaultStrategy._generate_raw`: for every
cell (i, j) the straight's value `y = a*i + b` is compared against `j` and
the cell is incremented when the comparison holds. -/
def lfIteration (w h : ℕ) (s : ℚ × ℚ) (c : Side) (hm : List ℚ) : List ℚ :=
  (List.range (w * h)).map (fun idx =>
    let i := idx / h
    let j := idx % h
    let y := s.1 * i + s.2
    if sideApply c y j then hm.getD idx 0 + 1 else hm.getD idx 0)

/-- The `for k in range(n)` loop of `LinearFaultStrategy._generate_raw`,
starting from `np.zeros([width, height])` and consuming one `Draw` per
iteration. -/
def lfLoop (w h : ℕ) (draws : ℕ → Draw) : ℕ → Except PyError (List ℚ)
  | 0 => .ok (List.replicate (w * h) 0)
  | k + 1 =>
    match lfLoop w h draws k with
    | .error e => .error e
    | .ok hm =>
      match random_straight (draws k) with
      | .error e => .error e
      | .ok s => .ok (lfIteration w h s (draws k).side hm)

/-- Embedding of `LinearFaultStrategy._generate_raw`: raises the missing
parameter error if `iterations` is absent, otherwise runs the fault loop. -/
def generate_raw_linear_fault (cfg : Config) (w h : ℕ) (draws : ℕ → Draw) :
    Except PyError (List ℚ) :=
  match cfg.iterations with
  | none => .error (.configError
      "Config parameter iterations missing for linear fault generator")
  | some n => lfLoop w h draws n

/-- Discriminator: did a pipeline stage fail with the explicitly raised
missing-parameter `Exception` (as opposed to succeeding or failing with a
`KeyError` or `NameError`)? -/
def isConfigErr {α : Type} : Except PyError α → Bool
  | .error (.configError _) => true
  | _ => false

/-- Number of cells of `hm` whose value is strictly below `v`. -/
def rankLt (hm : List ℚ) (v : ℚ) : ℕ :=
  hm.countP (fun x => decide (x < v))

/-- Modelled from the spec (section 4.4, used only to state claim C6 against
the code): the 3x3 neighborhood of cell (i, j) clipped to the field bounds,
excluding the center. -/
def specClipped (w h : ℕ) (i j : ℕ) : List (ℤ × ℤ) :=
  (([(-1, 0), (-1, -1), (-1, 1), (0, -1), (0, 1), (1, 0), (1, -1), (1, 1)] :
      List (ℤ × ℤ)).map (fun d => ((i : ℤ) + d.1, (j : ℤ) + d.2))).filter
    (inBounds w h)

/-- Modelled from the spec (section 4.4): new cell value = rounded
(2 x center + sum of in-bounds neighbors) / (2 + number of in-bounds
neighbors), the divisor counting only the weights actually present. -/
def specNewValue (w h : ℕ) (hm : List ℚ) (i j : ℕ) : ℚ :=
  let nbrs := specClipped w h i j
  (pyRound ((2 * readAt h hm ((i : ℤ), (j : ℤ)) + (nbrs.map (readAt h hm)).sum) /
      (2 + nbrs.length)) : ℚ)

/-- Configuration used by the spec's Grouper scenario: a single threshold
0.5 and nothing else. -/
def cfgHalf : Config := ⟨none, none, some (some [1/2]), none⟩

/-- Configuration of the spec's 2x2 scenario: thresholds [0.3, 0.6, 1.0]. -/
def cfgC1 : Config := ⟨none, none, some (some [3/10, 3/5, 1]), none⟩

/-- Configuration dictionary with no keys at all. -/
def cfgEmpty : Config := ⟨none, none, none, none⟩

section Lemmas

/-- A cell of one erosion round, addressed at its flat index. -/
theorem smoothRound_getD (w h : ℕ) (hm : List ℚ) (i j : ℕ) (hi : i < w) (hj : j < h) :
    (smoothRound w h hm).getD (i * h + j) 0 = smoothCell w h hm i j := by
  have hh : 0 < h := Nat.pos_of_ne_zero (by omega)
  have hidx : i * h + j < w * h := by
    calc i * h + j < i * h + h := by omega
    _ = (i + 1) * h := by ring
    _ ≤ w * h := Nat.mul_le_mul_right h hi
  have hlen : i * h + j < (smoothRound w h hm).length := by
    simpa [smoothRound] using hidx
  rw [List.getD_eq_getElem _ _ hlen]
  have hdiv : (i * h + j) / h = i := by
    rw [Nat.add_comm, Nat.add_mul_div_right _ _ hh, Nat.div_eq_of_lt hj, Nat.zero_add]
  have hmod : (i * h + j) % h = j := by
    rw [Nat.add_comm, Nat.add_mul_mod_self_right, Nat.mod_eq_of_lt hj]
  simp [smoothRound, List.getElem_map, List.getElem_range, hdiv, hmod]

theorem groupOf_le_length (x : ℚ) (ts : List ℚ) : groupOf x ts ≤ ts.length := by
  induction ts with
  | nil => simp [groupOf]
  | cons t ts ih =>
    by_cases hx : x < t <;> simp [groupOf, hx] <;> omega

end Lemmas

section RoundLemmas

theorem pyRound_eq_floor_or (q : ℚ) : pyRound q = ⌊q⌋ ∨ pyRound q = ⌊q⌋ + 1 := by
  simp only [pyRound]
  split_ifs <;> simp

/-- pyRound returns a nearest integer: it is never farther than 1/2 from its
argument. -/
theorem pyRound_near (q : ℚ) : |(pyRound q : ℚ) - q| ≤ 1/2 := by
  have hf : (⌊q⌋ : ℚ) ≤ q := Int.floor_le q
  have hc : q < ⌊q⌋ + 1 := Int.lt_floor_add_one q
  simp only [pyRound]
  split_ifs with h1 h2 h3 <;> rw [abs_le] <;> constructor <;> push_cast <;> linarith

theorem pyRound_nonneg (q : ℚ) (hq : 0 ≤ q) : 0 ≤ pyRound q := by
  have h0 : 0 ≤ ⌊q⌋ := Int.floor_nonneg.mpr hq
  rcases pyRound_eq_floor_or q with h | h <;> omega

theorem pyRound_le_of_le (q : ℚ) (L : ℤ) (hq : q ≤ L) : pyRound q ≤ L := by
  have hfl : ⌊q⌋ ≤ L := by
    have := Int.floor_le_floor hq
    rwa [Int.floor_intCast] at this
  by_cases heq : ⌊q⌋ = L
  · have hle : (L : ℚ) ≤ q := by rw [← heq]; exact Int.floor_le q
    have hqL : q = (L : ℚ) := le_antisymm hq hle
    have hcomp : pyRound ((L : ℚ)) = L := by
      simp only [pyRound, Int.floor_intCast]
      rw [if_pos (by norm_num)]
    rw [hqL, hcomp]
  · have hlt : ⌊q⌋ + 1 ≤ L := by omega
    rcases pyRound_eq_floor_or q with h | h <;> omega

end RoundLemmas

section SmoothLemmas

theorem sum_map_filter {α : Type} (l : List α) (p : α → Bool) (f : α → ℚ) :
    ((l.filter p).map f).sum = (l.map (fun a => if p a then f a else 0)).sum := by
  induction l with
  | nil => rfl
  | cons a t ih =>
    by_cases hp : p a
    · simp [List.filter_cons, hp, ih]
    · simp [List.filter_cons, hp, ih]

theorem length_filter_q {α : Type} (l : List α) (p : α → Bool) :
    (((l.filter p).length : ℕ) : ℚ) = (l.map (fun a => if p a then (1 : ℚ) else 0)).sum := by
  induction l with
  | nil => rfl
  | cons a t ih =>
    by_cases hp : p a
    · simp only [List.filter_cons, hp, if_true, List.length_cons, List.map_cons, List.sum_cons,
        ← ih]
      push_cast
      ring
    · simp [List.filter_cons, hp, ← ih]

/-- Bridge between the source computation of one smoothed cell and the
spec's description of it: the weighted sum over the kept candidates equals
twice the center plus the sum over the clipped 3x3 neighborhood, and the
weight sum equals 2 plus the number of in-bounds neighbors. -/
theorem smoothCell_eq_spec (w h : ℕ) (hm : List ℚ) (i j : ℕ)
    (hi : i < w) (hj : j < h) :
    smoothCell w h hm i j = specNewValue w h hm i j := by
  have hc : inBounds w h ((i : ℤ), (j : ℤ)) = true := by
    simp only [inBounds, Bool.and_eq_true, decide_eq_true_eq]
    omega
  simp only [smoothCell, specNewValue, specClipped, get_neighbors]
  rw [sum_map_filter, sum_map_filter, sum_map_filter, length_filter_q]
  simp only [List.map_cons, List.map_nil, List.sum_cons, List.sum_nil, hc, if_true,
    eq_self_iff_true]
  have e1 : ((i : ℤ)) + (-1) = (i : ℤ) - 1 := by ring
  have e2 : ((j : ℤ)) + (-1) = (j : ℤ) - 1 := by ring
  have e3 : ((i : ℤ)) + 0 = (i : ℤ) := by ring
  have e4 : ((j : ℤ)) + 0 = (j : ℤ) := by ring
  rw [e1, e2, e3, e4]
  congr 2
  all_goals ring

/-- Every kept neighbor entry has weight 1 or 2 and an in-bounds position. -/
theorem get_neighbors_entries (pt : ℤ × ℤ) (shape : ℕ × ℕ) :
    ∀ e ∈ get_neighbors pt shape,
      (e.2 = 1 ∨ e.2 = 2) ∧ inBounds shape.1 shape.2 e.1 = true := by
  intro e he
  simp only [get_neighbors, List.mem_filter] at he
  refine ⟨?_, he.2⟩
  have hm9 := he.1
  simp only [List.mem_cons, List.not_mem_nil, or_false] at hm9
  rcases hm9 with h | h | h | h | h | h | h | h | h <;> rw [h]
  · left; rfl
  · left; rfl
  · left; rfl
  · right; rfl
  · left; rfl
  · left; rfl
  · left; rfl
  · left; rfl
  · left; rfl

/-- The center cell itself, with weight 2, is always kept when it is in
bounds. -/
theorem center_mem_get_neighbors (w h : ℕ) (i j : ℕ) (hi : i < w) (hj : j < h) :
    (((i : ℤ), (j : ℤ)), (2 : ℚ)) ∈ get_neighbors ((i : ℤ), (j : ℤ)) (w, h) := by
  simp only [get_neighbors, List.mem_filter]
  constructor
  · simp
  · simp only [inBounds, Bool.and_eq_true, decide_eq_true_eq]
    omega

/-- Reading an in-bounds position of a field of the right size yields an
element of the field. -/
theorem readAt_mem (w h : ℕ) (hm : List ℚ) (p : ℤ × ℤ) (hlen : hm.length = w * h)
    (hb : inBounds w h p = true) : readAt h hm p ∈ hm := by
  simp only [inBounds, Bool.and_eq_true, decide_eq_true_eq] at hb
  obtain ⟨⟨⟨h1, h2⟩, h3⟩, h4⟩ := hb
  have hp1 : p.1.toNat < w := by omega
  have hp2 : p.2.toNat < h := by omega
  have hidx : p.1.toNat * h + p.2.toNat < w * h := by
    calc p.1.toNat * h + p.2.toNat < p.1.toNat * h + h := by omega
    _ = (p.1.toNat + 1) * h := by ring
    _ ≤ w * h := Nat.mul_le_mul_right h hp1
  rw [readAt, List.getD_eq_getElem hm 0 (by rw [hlen]; exact hidx)]
  exact List.getElem_mem _

/-- One erosion round preserves the field size and keeps every cell an
integer bounded by the group count. -/
theorem smoothRound_preserves (w h L : ℕ) (hm : List ℚ)
    (hh : 0 < h) (hlen : hm.length = w * h)
    (hv : ∀ v ∈ hm, ∃ m : ℕ, v = (m : ℚ) ∧ m ≤ L) :
    (smoothRound w h hm).length = w * h
    ∧ ∀ v ∈ smoothRound w h hm, ∃ m : ℕ, v = (m : ℚ) ∧ m ≤ L := by
  refine ⟨by simp [smoothRound], fun v hv2 => ?_⟩
  simp only [smoothRound, List.mem_map, List.mem_range] at hv2
  obtain ⟨idx, hidx, hveq⟩ := hv2
  have hi : idx / h < w := by
    rw [Nat.div_lt_iff_lt_mul hh]
    omega
  have hj : idx % h < h := Nat.mod_lt idx hh
  set i := idx / h
  set j := idx % h
  set ns := get_neighbors ((i : ℤ), (j : ℤ)) (w, h) with hns
  have hread : ∀ e ∈ ns, 0 ≤ readAt h hm e.1 ∧ readAt h hm e.1 ≤ (L : ℚ) := by
    intro e he
    obtain ⟨hwt, hbnd⟩ := get_neighbors_entries _ _ e he
    obtain ⟨m, hm1, hm2⟩ := hv _ (readAt_mem w h hm e.1 hlen hbnd)
    refine ⟨by rw [hm1]; positivity, by rw [hm1]; exact_mod_cast hm2⟩
  have hwt0 : ∀ e ∈ ns, (0 : ℚ) ≤ e.2 := by
    intro e he
    rcases (get_neighbors_entries _ _ e he).1 with hq | hq <;> rw [hq] <;> norm_num
  set S := (ns.map (fun e => readAt h hm e.1 * e.2)).sum with hS
  set W := (ns.map (fun e => e.2)).sum with hW
  have hW2 : (2 : ℚ) ≤ W := by
    refine List.single_le_sum ?_ 2 ?_
    · intro x hx
      obtain ⟨e, he, hex⟩ := List.mem_map.mp hx
      rw [← hex]
      exact hwt0 e he
    · exact List.mem_map.mpr ⟨_, center_mem_get_neighbors w h i j hi hj, rfl⟩
  have hWpos : (0 : ℚ) < W := lt_of_lt_of_le (by norm_num) hW2
  have hSnn : 0 ≤ S := by
    refine List.sum_nonneg ?_
    intro x hx
    obtain ⟨e, he, hex⟩ := List.mem_map.mp hx
    rw [← hex]
    exact mul_nonneg (hread e he).1 (hwt0 e he)
  have hSle : S ≤ (L : ℚ) * W := by
    rw [hW, ← List.sum_map_mul_left]
    refine List.sum_le_sum ?_
    intro e he
    exact mul_le_mul_of_nonneg_right (hread e he).2 (hwt0 e he)
  have hq1 : 0 ≤ S / W := div_nonneg hSnn (le_of_lt hWpos)
  have hq2 : S / W ≤ (L : ℚ) := by
    rw [div_le_iff₀ hWpos]
    exact hSle
  have hz0 : 0 ≤ pyRound (S / W) := pyRound_nonneg _ hq1
  have hzL : pyRound (S / W) ≤ (L : ℤ) := by
    refine pyRound_le_of_le _ _ ?_
    push_cast
    exact hq2
  refine ⟨(pyRound (S / W)).toNat, ?_, by omega⟩
  rw [← hveq]
  simp only [smoothCell, ← hns, ← hS, ← hW]
  exact_mod_cast (Int.toNat_of_nonneg hz0).symm

/-- Iterating erosion rounds preserves size and the integer range. -/
theorem smoothIter_preserves (w h L : ℕ) (rounds : ℕ) (hm : List ℚ)
    (hh : 0 < h) (hlen : hm.length = w * h)
    (hv : ∀ v ∈ hm, ∃ m : ℕ, v = (m : ℚ) ∧ m ≤ L) :
    (smoothIter w h rounds hm).length = w * h
    ∧ ∀ v ∈ smoothIter w h rounds hm, ∃ m : ℕ, v = (m : ℚ) ∧ m ≤ L := by
  induction rounds generalizing hm with
  | zero => exact ⟨hlen, hv⟩
  | succ r ih =>
    obtain ⟨hlen2, hv2⟩ := smoothRound_preserves w h L hm hh hlen hv
    exact ih (smoothRound w h hm) hlen2 hv2

end SmoothLemmas

section PercentileLemmas

/-- Closed form of the assignment loop when the state already holds a
previous value `v0` (a lower bound of the remaining sorted entries) with its
percentile `p0`: entries equal to `v0` inherit `p0`, and any other value `v`
gets the candidate percentile of its first occurrence. -/
theorem percentileAssign_some_eq (n : ℕ) (l : List (ℕ × ℚ)) :
    ∀ (k : ℕ) (v0 p0 : ℚ),
      List.Pairwise (fun a b : ℕ × ℚ => a.2 ≤ b.2) l →
      (∀ e ∈ l, v0 ≤ e.2) →
      percentileAssign n k (some p0) (some v0) l =
        l.map (fun e => (e.1, if e.2 = v0 then p0
          else (((k + l.findIdx (fun e2 => decide (e2.2 = e.2)) : ℕ) : ℚ) + 1) / n)) := by
  induction l with
  | nil => intro k v0 p0 _ _; rfl
  | cons e t ih =>
    intro k v0 p0 hs hb
    rw [List.pairwise_cons] at hs
    by_cases he : e.2 = v0
    · have hcurr : percentileAssign n k (some p0) (some v0) (e :: t) =
          (e.1, p0) :: percentileAssign n (k + 1) (some p0) (some e.2) t := by
        simp [percentileAssign, he]
      rw [hcurr, ih (k + 1) e.2 p0 hs.2 hs.1]
      simp only [List.map_cons]
      congr 1
      · rw [if_pos he]
      · refine List.map_congr_left fun e2 he2 => ?_
        by_cases h2 : e2.2 = v0
        · rw [if_pos h2, if_pos (h2.trans he.symm)]
        · have h2e : ¬ (e2.2 = e.2) := fun h => h2 (h.trans he)
          have hne : ¬ (e.2 = e2.2) := fun h => h2e h.symm
          rw [if_neg h2, if_neg h2e]
          have hfind : (e :: t).findIdx (fun e3 => decide (e3.2 = e2.2))
              = t.findIdx (fun e3 => decide (e3.2 = e2.2)) + 1 := by
            simp [List.findIdx_cons, hne]
          rw [hfind]
          refine congrArg (Prod.mk e2.1) ?_
          have harith : k + 1 + t.findIdx (fun e3 => decide (e3.2 = e2.2))
              = k + (t.findIdx (fun e3 => decide (e3.2 = e2.2)) + 1) := by omega
          rw [harith]
    · have hvlt : v0 < e.2 :=
        lt_of_le_of_ne (hb e (List.mem_cons_self e t)) (fun h => he h.symm)
      have hcurr : percentileAssign n k (some p0) (some v0) (e :: t) =
          (e.1, ((k : ℚ) + 1) / n) ::
            percentileAssign n (k + 1) (some (((k : ℚ) + 1) / n)) (some e.2) t := by
        simp [percentileAssign, he]
      rw [hcurr, ih (k + 1) e.2 (((k : ℚ) + 1) / n) hs.2 hs.1]
      simp only [List.map_cons]
      congr 1
      · rw [if_neg he]
        have hfind : (e :: t).findIdx (fun e3 => decide (e3.2 = e.2)) = 0 := by
          simp [List.findIdx_cons]
        rw [hfind]
        simp
      · refine List.map_congr_left fun e2 he2 => ?_
        have h2v0 : ¬ (e2.2 = v0) := by
          have hle : e.2 ≤ e2.2 := hs.1 e2 he2
          exact fun h => absurd (h ▸ hle) (not_le.mpr hvlt)
        rw [if_neg h2v0]
        by_cases h2 : e2.2 = e.2
        · rw [if_pos h2]
          have hfind : (e :: t).findIdx (fun e3 => decide (e3.2 = e2.2)) = 0 := by
            simp [List.findIdx_cons, h2.symm]
          rw [hfind]
          simp
        · have hne : ¬ (e.2 = e2.2) := fun h => h2 h.symm
          rw [if_neg h2]
          have hfind : (e :: t).findIdx (fun e3 => decide (e3.2 = e2.2))
              = t.findIdx (fun e3 => decide (e3.2 = e2.2)) + 1 := by
            simp [List.findIdx_cons, hne]
          rw [hfind]
          refine congrArg (Prod.mk e2.1) ?_
          have harith : k + 1 + t.findIdx (fun e3 => decide (e3.2 = e2.2))
              = k + (t.findIdx (fun e3 => decide (e3.2 = e2.2)) + 1) := by omega
          rw [harith]

/-- Closed form of the assignment loop from the initial state: on a sorted
list every entry receives the candidate percentile of the first occurrence
of its value. -/
theorem percentileAssign_none_eq (n : ℕ) (l : List (ℕ × ℚ)) (k : ℕ)
    (hs : List.Pairwise (fun a b : ℕ × ℚ => a.2 ≤ b.2) l) :
    percentileAssign n k none none l =
      l.map (fun e =>
        (e.1, (((k + l.findIdx (fun e2 => decide (e2.2 = e.2)) : ℕ) : ℚ) + 1) / n)) := by
  cases l with
  | nil => rfl
  | cons e t =>
    rw [List.pairwise_cons] at hs
    have hcurr : percentileAssign n k none none (e :: t) =
        (e.1, ((k : ℚ) + 1) / n) ::
          percentileAssign n (k + 1) (some (((k : ℚ) + 1) / n)) (some e.2) t := by
      simp [percentileAssign]
    rw [hcurr, percentileAssign_some_eq n t (k + 1) e.2 (((k : ℚ) + 1) / n) hs.2 hs.1]
    simp only [List.map_cons]
    congr 1
    · have hfind : (e :: t).findIdx (fun e3 => decide (e3.2 = e.2)) = 0 := by
        simp [List.findIdx_cons]
      rw [hfind]
      simp
    · refine List.map_congr_left fun e2 he2 => ?_
      by_cases h2 : e2.2 = e.2
      · rw [if_pos h2]
        have hfind : (e :: t).findIdx (fun e3 => decide (e3.2 = e2.2)) = 0 := by
          simp [List.findIdx_cons, h2.symm]
        rw [hfind]
        simp
      · have hne : ¬ (e.2 = e2.2) := fun h => h2 h.symm
        rw [if_neg h2]
        have hfind : (e :: t).findIdx (fun e3 => decide (e3.2 = e2.2))
            = t.findIdx (fun e3 => decide (e3.2 = e2.2)) + 1 := by
          simp [List.findIdx_cons, hne]
        rw [hfind]
        refine congrArg (Prod.mk e2.1) ?_
        have harith : k + 1 + t.findIdx (fun e3 => decide (e3.2 = e2.2))
            = k + (t.findIdx (fun e3 => decide (e3.2 = e2.2)) + 1) := by omega
        rw [harith]

/-- On a value-sorted list, the index of the first entry carrying value `v`
(present in the list) equals the number of entries with a strictly smaller
value. -/
theorem findIdx_eq_countP (l : List (ℕ × ℚ)) (v : ℚ)
    (hs : List.Pairwise (fun a b : ℕ × ℚ => a.2 ≤ b.2) l)
    (hv : ∃ e ∈ l, e.2 = v) :
    l.findIdx (fun e => decide (e.2 = v)) = l.countP (fun e => decide (e.2 < v)) := by
  induction l with
  | nil => simp at hv
  | cons e t ih =>
    rw [List.pairwise_cons] at hs
    by_cases he : e.2 = v
    · have hzero : t.countP (fun e2 => decide (e2.2 < v)) = 0 := by
        rw [List.countP_eq_zero]
        intro b hb
        simp only [decide_eq_true_eq]
        exact not_lt.mpr (he ▸ hs.1 b hb)
      simp [List.findIdx_cons, he, List.countP_cons, hzero]
    · obtain ⟨e2, he2, hev⟩ := hv
      have he2t : e2 ∈ t := by
        rcases List.mem_cons.mp he2 with h | h
        · exact absurd (h ▸ hev) he
        · exact h
      have helt : e.2 < v := lt_of_le_of_ne (hev ▸ hs.1 e2 he2t) he
      have hfind : (e :: t).findIdx (fun e3 => decide (e3.2 = v))
          = t.findIdx (fun e3 => decide (e3.2 = v)) + 1 := by
        simp [List.findIdx_cons, he]
      have hcount : (e :: t).countP (fun e3 => decide (e3.2 < v))
          = t.countP (fun e3 => decide (e3.2 < v)) + 1 := by
        simp [List.countP_cons, helt]
      rw [hfind, hcount, ih hs.2 ⟨e2, he2t, hev⟩]

theorem foldl_set_length (l : List (ℕ × ℚ)) (base : List ℚ) :
    (l.foldl (fun acc e => acc.set e.1 e.2) base).length = base.length := by
  induction l generalizing base with
  | nil => rfl
  | cons e t ih => simp only [List.foldl_cons]; rw [ih, List.length_set]

theorem foldl_set_getD_not_mem (l : List (ℕ × ℚ)) (base : List ℚ) (i : ℕ)
    (hni : i ∉ l.map Prod.fst) :
    (l.foldl (fun acc e => acc.set e.1 e.2) base).getD i 0 = base.getD i 0 := by
  induction l generalizing base with
  | nil => rfl
  | cons e t ih =>
    simp only [List.map_cons, List.mem_cons] at hni
    push_neg at hni
    simp only [List.foldl_cons]
    rw [ih _ hni.2, List.getD_eq_getElem?_getD, List.getElem?_set,
      if_neg (fun h => hni.1 h.symm), ← List.getD_eq_getElem?_getD]

/-- Writing back a list of (position, value) pairs with pairwise distinct
positions stores each value at its position. -/
theorem foldl_set_getD_mem (l : List (ℕ × ℚ)) (base : List ℚ) (i : ℕ) (p : ℚ)
    (hnd : (l.map Prod.fst).Nodup) (hmem : (i, p) ∈ l) (hi : i < base.length) :
    (l.foldl (fun acc e => acc.set e.1 e.2) base).getD i 0 = p := by
  induction l generalizing base with
  | nil => simp at hmem
  | cons e t ih =>
    simp only [List.map_cons, List.nodup_cons] at hnd
    simp only [List.foldl_cons]
    rcases List.mem_cons.mp hmem with heq | hmem2
    · have hpos : i ∉ t.map Prod.fst := by
        have : e.1 ∉ t.map Prod.fst := hnd.1
        rwa [← heq] at this
      rw [foldl_set_getD_not_mem t _ i hpos, ← heq, List.getD_eq_getElem?_getD,
        List.getElem?_set, if_pos rfl, if_pos hi]
      rfl
    · exact ih (base.set e.1 e.2) hnd.2 hmem2 (by rwa [List.length_set])

/-- Sortedness of the stable sort used by `__calc_percentiles`. -/
theorem sortedCells_pairwise (hm : List ℚ) :
    List.Pairwise (fun a b : ℕ × ℚ => a.2 ≤ b.2)
      (hm.enum.mergeSort (fun a b => a.2 ≤ b.2)) := by
  have h := @List.sorted_mergeSort (ℕ × ℚ) (fun a b => decide (a.2 ≤ b.2))
    (fun a b c hab hbc => by
      simp only [decide_eq_true_eq] at *
      exact le_trans hab hbc)
    (fun a b => by
      simp only [Bool.or_eq_true, decide_eq_true_eq]
      exact le_total a.2 b.2)
    hm.enum
  exact h.imp (by simp)

theorem calc_percentiles_length (hm : List ℚ) :
    (calc_percentiles hm).length = hm.length := by
  simp only [calc_percentiles]
  rw [foldl_set_length]

/-- Characterisation of the percentile stage: the cell at flat index `i`
with raw value `v` ends up with percentile (number of strictly smaller cells
plus one) divided by the number of cells. -/
theorem calc_percentiles_getD (hm : List ℚ) (i : ℕ) (hi : i < hm.length) :
    (calc_percentiles hm).getD i 0 =
      ((rankLt hm (hm.getD i 0) : ℚ) + 1) / hm.length := by
  have hv : hm.getD i 0 = hm[i] := List.getD_eq_getElem hm 0 hi
  set v : ℚ := hm.getD i 0 with hvdef
  set srtd := hm.enum.mergeSort (fun a b => a.2 ≤ b.2) with hsrtd
  have hperm : srtd.Perm hm.enum := List.mergeSort_perm hm.enum _
  have hsorted : List.Pairwise (fun a b : ℕ × ℚ => a.2 ≤ b.2) srtd :=
    sortedCells_pairwise hm
  have hmem_enum : (i, v) ∈ hm.enum := by
    rw [List.mem_enum_iff_getElem?]
    simp [List.getElem?_eq_getElem hi, hv]
  have hmem : (i, v) ∈ srtd := hperm.mem_iff.mpr hmem_enum
  have hnodup : (srtd.map Prod.fst).Nodup := by
    have hp : (srtd.map Prod.fst).Perm (hm.enum.map Prod.fst) := hperm.map _
    rw [hp.nodup_iff, List.enum_map_fst]
    exact List.nodup_range _
  have hassign := percentileAssign_none_eq hm.length srtd 0 hsorted
  set f : ℕ × ℚ → ℕ × ℚ := fun e =>
    (e.1, (((0 + srtd.findIdx (fun e2 => decide (e2.2 = e.2)) : ℕ) : ℚ) + 1) / hm.length)
    with hf
  have hres : calc_percentiles hm =
      (srtd.map f).foldl (fun acc e => acc.set e.1 e.2) hm := by
    simp only [calc_percentiles, ← hsrtd]
    rw [hassign]
  have hfmem : (i, (((0 + srtd.findIdx (fun e2 => decide (e2.2 = v)) : ℕ) : ℚ) + 1)
      / hm.length) ∈ srtd.map f := by
    have := List.mem_map_of_mem f hmem
    simpa [hf] using this
  have hnodup2 : ((srtd.map f).map Prod.fst).Nodup := by
    rw [List.map_map]
    have : (Prod.fst ∘ f) = (Prod.fst : ℕ × ℚ → ℕ) := by
      funext e
      simp [hf]
    rwa [this]
  have hgot := foldl_set_getD_mem (srtd.map f) hm i _ hnodup2 hfmem hi
  rw [hres, hgot]
  have hrank : srtd.findIdx (fun e2 => decide (e2.2 = v)) = rankLt hm v := by
    rw [findIdx_eq_countP srtd v hsorted ⟨(i, v), hmem, rfl⟩, hperm.countP_eq]
    have hcomp := List.countP_map (fun x : ℚ => decide (x < v)) (Prod.snd : ℕ × ℚ → ℚ) hm.enum
    rw [List.enum_map_snd] at hcomp
    simp only [rankLt]
    exact hcomp.symm
  rw [hrank]
  norm_num

/-- Percentiles of the concrete raw field [[1,2],[2,3]] (row-major
[1,2,2,3]): the two cells of value 2 both receive the percentile 2/4 = 0.5
computed at the first value-2 entry of the sorted order. -/
theorem calc_percentiles_scenario :
    calc_percentiles [(1 : ℚ), 2, 2, 3] = [1/4, 1/2, 1/2, 1] := by
  have hlen : (calc_percentiles [(1 : ℚ), 2, 2, 3]).length = 4 := by
    rw [calc_percentiles_length]
    rfl
  refine List.ext_getElem (by rw [hlen]; rfl) ?_
  intro n h1 h2
  have h4 : n < 4 := by rwa [hlen] at h1
  have hgd : ∀ m : ℕ, m < 4 → (calc_percentiles [(1 : ℚ), 2, 2, 3]).getD m 0 =
      ((rankLt [(1 : ℚ), 2, 2, 3] (([(1 : ℚ), 2, 2, 3]).getD m 0) : ℚ) + 1) / 4 := by
    intro m hm
    exact calc_percentiles_getD [(1 : ℚ), 2, 2, 3] m (by simpa using hm)
  rw [← List.getD_eq_getElem _ 0 h1]
  interval_cases n
  · rw [hgd 0 (by norm_num)]
    norm_num [rankLt, List.countP_cons]
  · rw [hgd 1 (by norm_num)]
    norm_num [rankLt, List.countP_cons]
  · rw [hgd 2 (by norm_num)]
    norm_num [rankLt, List.countP_cons]
  · rw [hgd 3 (by norm_num)]
    norm_num [rankLt, List.countP_cons]

/-- Grouping of the scenario percentiles: percentile 1.0 is not strictly
below the last threshold 1.0, so that cell overflows into group 3. -/
theorem calc_groups_scenario :
    calc_groups cfgC1 [(1 : ℚ)/4, 1/2, 1/2, 1] = .ok [0, 1, 1, 3] := by
  norm_num [calc_groups, cfgC1, groupOf]

end PercentileLemmas

/-- C1 corrected: for the 2x2 raw field [[1,2],[2,3]] (row-major order
[1,2,2,3]) the percentile stage yields [[0.25,0.5],[0.5,1.0]] and, with
thresholds [0.3, 0.6, 1.0], the grouping stage yields group indices
[[0,1],[1,3]]. -/
theorem scenario_2x2_pipeline :
    calc_percentiles [(1 : ℚ), 2, 2, 3] = [1/4, 1/2, 1/2, 1]
    ∧ calc_groups cfgC1 (calc_percentiles [(1 : ℚ), 2, 2, 3]) = .ok [0, 1, 1, 3] := by
  refine ⟨calc_percentiles_scenario, ?_⟩
  rw [calc_percentiles_scenario]
  exact calc_groups_scenario

/-- C1 counterexample: the claimed percentile field [[0.25,0.75],[0.75,1.0]]
and the claimed group field [[0,1],[1,2]] are both different from what the
code computes on the raw field [[1,2],[2,3]]. -/
theorem scenario_2x2_refute :
    calc_percentiles [(1 : ℚ), 2, 2, 3] ≠ [1/4, 3/4, 3/4, 1]
    ∧ calc_groups cfgC1 (calc_percentiles [(1 : ℚ), 2, 2, 3]) ≠ .ok [0, 1, 1, 2] := by
  rw [calc_percentiles_scenario]
  constructor
  · intro habs
    have : (1 : ℚ)/2 = 3/4 := by
      have := congrArg (fun l : List ℚ => l.getD 1 0) habs
      simpa using this
    norm_num at this
  · rw [calc_groups_scenario]
    intro habs
    simp only [Except.ok.injEq, List.cons.injEq] at habs
    norm_num at habs

/-- C4: after percentile normalisation, for any two cells a strictly smaller
raw value gets a percentile at most that of the larger raw value, and equal
raw values get exactly equal percentiles. -/
theorem calc_percentiles_monotone (hm : List ℚ) (i1 i2 : ℕ)
    (h1 : i1 < hm.length) (h2 : i2 < hm.length) :
    (hm.getD i1 0 < hm.getD i2 0 →
      (calc_percentiles hm).getD i1 0 ≤ (calc_percentiles hm).getD i2 0)
    ∧ (hm.getD i1 0 = hm.getD i2 0 →
      (calc_percentiles hm).getD i1 0 = (calc_percentiles hm).getD i2 0) := by
  rw [calc_percentiles_getD hm i1 h1, calc_percentiles_getD hm i2 h2]
  constructor
  · intro hlt
    have hcount : rankLt hm (hm.getD i1 0) ≤ rankLt hm (hm.getD i2 0) := by
      refine List.countP_mono_left fun x _ hx => ?_
      simp only [decide_eq_true_eq] at hx ⊢
      exact lt_trans hx hlt
    have hn : (0 : ℚ) < hm.length := by
      exact_mod_cast lt_of_le_of_lt (Nat.zero_le i1) h1
    gcongr
  · intro heq
    rw [heq]

/-- C4 witness: the monotonicity statement applied to the field [0,1]. -/
theorem calc_percentiles_monotone_witness :
    (([(0 : ℚ), 1]).getD 0 0 < ([(0 : ℚ), 1]).getD 1 0 →
      (calc_percentiles [(0 : ℚ), 1]).getD 0 0 ≤ (calc_percentiles [(0 : ℚ), 1]).getD 1 0)
    ∧ (([(0 : ℚ), 1]).getD 0 0 = ([(0 : ℚ), 1]).getD 1 0 →
      (calc_percentiles [(0 : ℚ), 1]).getD 0 0 = (calc_percentiles [(0 : ℚ), 1]).getD 1 0) :=
  calc_percentiles_monotone [(0 : ℚ), 1] 0 1 (by decide) (by decide)

/-- C10: on a field whose raw values are all equal every cell receives the
percentile 1/(number of cells), which is different from 1 as soon as the
field has more than one cell. -/
theorem calc_percentiles_all_equal (hm : List ℚ) (c : ℚ) (i : ℕ)
    (hc : ∀ v ∈ hm, v = c) (hi : i < hm.length) :
    (calc_percentiles hm).getD i 0 = 1 / hm.length
    ∧ (1 < hm.length → (calc_percentiles hm).getD i 0 ≠ 1) := by
  have hvc : hm.getD i 0 = c := by
    rw [List.getD_eq_getElem hm 0 hi]
    exact hc _ (List.getElem_mem hi)
  have hrank : rankLt hm (hm.getD i 0) = 0 := by
    simp only [rankLt]
    rw [List.countP_eq_zero]
    intro a ha
    simp only [decide_eq_true_eq]
    rw [hvc, hc a ha]
    exact lt_irrefl c
  have h := calc_percentiles_getD hm i hi
  rw [hrank] at h
  rw [Nat.cast_zero, zero_add] at h
  refine ⟨h, fun hlen => ?_⟩
  rw [h]
  have hone : (1 : ℚ) < hm.length := by exact_mod_cast hlen
  have hne : (hm.length : ℚ) ≠ 0 := by linarith
  intro habs
  rw [div_eq_one_iff_eq hne] at habs
  linarith [habs]

/-- C10 witness: the all-zero 2x2 raw field produced by the default raw
generator gets percentile 1/4 everywhere, not 1. -/
theorem calc_percentiles_all_equal_witness :
    (calc_percentiles (generate_raw_default 2 2)).getD 0 0 = 1 / (generate_raw_default 2 2).length
    ∧ (1 < (generate_raw_default 2 2).length →
        (calc_percentiles (generate_raw_default 2 2)).getD 0 0 ≠ 1) :=
  calc_percentiles_all_equal (generate_raw_default 2 2) 0 0
    (fun v hv => List.eq_of_mem_replicate hv)
    (by decide)

/-- C2: the spec says an equal pair of drawn x-coordinates is perturbed by a
small epsilon so that `__random_straight` always returns a line.  In the
source the branch reads the bare name `__MODIFIER`, which name-mangling
turns into the undefined `_LinearFaultStrategy__MODIFIER`, so the branch
raises a `NameError` instead; distinct x-coordinates still yield the line. -/
theorem random_straight_equal_x_raises :
    random_straight ⟨1, 2, 1, 5, Side.lt⟩ =
      .error (.nameError "_LinearFaultStrategy__MODIFIER")
    ∧ random_straight ⟨0, 0, 2, 2, Side.lt⟩ = .ok (1, 0) := by
  constructor
  · simp [random_straight]
  · norm_num [random_straight]

/-- C3 counterexample: at the corner (0,0) of a 5x5 field `__get_neighbors`
keeps only 3 actual neighbors plus the weight-2 center (4 kept entries), so
the effective weight sum is 5, not the claimed 4 neighbors with sum 6. -/
theorem corner_neighbors_refute :
    (get_neighbors (0, 0) (5, 5)).length = 4
    ∧ ((get_neighbors (0, 0) (5, 5)).map (fun e => e.2)).sum = 5
    ∧ ¬ (((get_neighbors (0, 0) (5, 5)).map (fun e => e.2)).sum = 6
          ∧ (get_neighbors (0, 0) (5, 5)).length = 5) := by
  refine ⟨?_, ?_, ?_⟩ <;> norm_num [get_neighbors, inBounds, List.filter_cons]

/-- C3 amended: one erosion round gives the corner (0,0) of a 5x5 field the
rounded weighted average over its 3 actual neighbors plus the center of
weight 2, divisor 5; out-of-bounds neighbors do not contribute to the
divisor. -/
theorem corner_smooth_weights (hm : List ℚ) :
    (smoothRound 5 5 hm).getD 0 0 =
      (pyRound ((hm.getD 0 0 * 2 + hm.getD 1 0 + hm.getD 5 0 + hm.getD 6 0) / 5) : ℚ) := by
  have h := smoothRound_getD 5 5 hm 0 0 (by norm_num) (by norm_num)
  simp only [Nat.mul_zero, Nat.zero_mul, Nat.add_zero] at h
  rw [h]
  simp only [smoothCell, get_neighbors, inBounds, readAt]
  norm_num [List.filter_cons]
  congr 1
  ring

/-- Whatever the draws, the linear-fault loop never fails with the
missing-parameter Exception; its only failure mode is the NameError of
`__random_straight`. -/
theorem lfLoop_no_configErr (w h : ℕ) (draws : ℕ → Draw) (k : ℕ) :
    isConfigErr (lfLoop w h draws k) = false := by
  induction k with
  | zero => rfl
  | succ k ih =>
    simp only [lfLoop]
    cases hk : lfLoop w h draws k with
    | error e =>
      rw [hk] at ih
      cases e with
      | keyError s => simp [isConfigErr]
      | configError s => simp [isConfigErr] at ih
      | nameError s => simp [isConfigErr]
    | ok hm =>
      cases hs : random_straight (draws k) with
      | error e =>
        simp only [random_straight] at hs
        by_cases hx : (draws k).x1 = (draws k).x2
        · rw [if_pos hx] at hs
          injection hs with hs2
          rw [← hs2]
          simp [isConfigErr]
        · rw [if_neg hx] at hs
          cases hs
      | ok s => simp [isConfigErr]

/-- C8 amended: the missing-parameter Exception is raised exactly when
`iterations` is absent for the LinearFault strategy and when `thresholds`
is present but set to None; an entirely absent `thresholds` key instead
fails with a KeyError from the dictionary lookup, and a present thresholds
list leads to a successful grouping. -/
theorem config_error_conditions (cfg : Config) (w h n : ℕ) (draws : ℕ → Draw)
    (hm ts : List ℚ) :
    (cfg.iterations = none → generate_raw_linear_fault cfg w h draws =
      .error (.configError "Config parameter iterations missing for linear fault generator"))
    ∧ (cfg.iterations = some n →
        isConfigErr (generate_raw_linear_fault cfg w h draws) = false)
    ∧ (cfg.thresholds = none → calc_groups cfg hm = .error (.keyError "thresholds"))
    ∧ (cfg.thresholds = some none → calc_groups cfg hm =
        .error (.configError "The config parameter thresholds must be set."))
    ∧ (cfg.thresholds = some (some ts) →
        calc_groups cfg hm = .ok (hm.map (fun x => (groupOf x ts : ℚ)))) := by
  refine ⟨?_, ?_, ?_, ?_, ?_⟩ <;> intro hx
  · simp [generate_raw_linear_fault, hx]
  · simp only [generate_raw_linear_fault, hx]
    exact lfLoop_no_configErr w h draws n
  · simp [calc_groups, hx]
  · simp [calc_groups, hx]
  · simp [calc_groups, hx]

/-- C8 witness: with an empty configuration the LinearFault stage raises the
missing-iterations Exception. -/
theorem config_error_conditions_witness :
    cfgEmpty.iterations = none
    ∧ generate_raw_linear_fault cfgEmpty 2 2 (fun _ => ⟨0, 0, 1, 1, Side.lt⟩) =
        .error (.configError
          "Config parameter iterations missing for linear fault generator") :=
  ⟨rfl, (config_error_conditions cfgEmpty 2 2 0 (fun _ => ⟨0, 0, 1, 1, Side.lt⟩) [] []).1 rfl⟩

/-- C8 counterexample: a config without the `thresholds` key makes the
Grouper fail with a KeyError from `self.config['thresholds']`, not with the
missing-parameter Exception the claim describes. -/
theorem missing_thresholds_keyError :
    calc_groups cfgEmpty [(1 : ℚ)/2] = .error (.keyError "thresholds")
    ∧ isConfigErr (calc_groups cfgEmpty [(1 : ℚ)/2]) = false :=
  ⟨rfl, rfl⟩

/-- Invariant of the linear-fault loop: when it completes it yields a field
of exactly width x height cells whose values are integers bounded by the
number of completed iterations. -/
theorem lfLoop_bound (w h : ℕ) (draws : ℕ → Draw) (k : ℕ) (hm : List ℚ)
    (hok : lfLoop w h draws k = .ok hm) :
    hm.length = w * h ∧ ∀ v ∈ hm, ∃ m : ℕ, v = (m : ℚ) ∧ m ≤ k := by
  induction k generalizing hm with
  | zero =>
    simp only [lfLoop, Except.ok.injEq] at hok
    subst hok
    refine ⟨by simp, fun v hv => ?_⟩
    exact ⟨0, by simpa using List.eq_of_mem_replicate hv, le_refl 0⟩
  | succ k ih =>
    simp only [lfLoop] at hok
    cases hk : lfLoop w h draws k with
    | error e =>
      rw [hk] at hok
      cases hok
    | ok hm0 =>
      rw [hk] at hok
      obtain ⟨hlen0, hb0⟩ := ih hm0 hk
      cases hs : random_straight (draws k) with
      | error e =>
        rw [hs] at hok
        cases hok
      | ok s =>
        rw [hs] at hok
        simp only [Except.ok.injEq] at hok
        subst hok
        refine ⟨by simp [lfIteration], fun v hv => ?_⟩
        simp only [lfIteration, List.mem_map, List.mem_range] at hv
        obtain ⟨idx, hidx, hveq⟩ := hv
        have hmem : hm0.getD idx 0 ∈ hm0 := by
          rw [List.getD_eq_getElem hm0 0 (by rwa [hlen0])]
          exact List.getElem_mem _
        obtain ⟨m, hmv, hmk⟩ := hb0 _ hmem
        rw [← hveq]
        split
        · exact ⟨m + 1, by rw [hmv]; push_cast; ring, by omega⟩
        · exact ⟨m, hmv, by omega⟩

/-- C9: whenever the LinearFault raw stage with n iterations completes, every
cell holds an integer between 0 and n, and with n = 0 it yields the all-zero
field no matter what the random draws are. -/
theorem linear_fault_bound (cfg : Config) (w h n : ℕ) (draws : ℕ → Draw)
    (hn : cfg.iterations = some n) :
    (∀ hm, generate_raw_linear_fault cfg w h draws = .ok hm →
      hm.length = w * h ∧ ∀ v ∈ hm, ∃ m : ℕ, v = (m : ℚ) ∧ m ≤ n)
    ∧ (n = 0 → generate_raw_linear_fault cfg w h draws = .ok (List.replicate (w * h) 0)) := by
  constructor
  · intro hm hok
    simp only [generate_raw_linear_fault, hn] at hok
    exact lfLoop_bound w h draws n hm hok
  · intro h0
    subst h0
    simp [generate_raw_linear_fault, hn, lfLoop]

/-- C9 witness: with iterations = 0 on a 2x2 field the raw stage returns the
all-zero field. -/
theorem linear_fault_bound_witness :
    (Config.mk none (some 0) none none).iterations = some 0
    ∧ generate_raw_linear_fault (Config.mk none (some 0) none none) 2 2
        (fun _ => ⟨0, 0, 1, 1, Side.lt⟩) = .ok (List.replicate 4 0) :=
  ⟨rfl, (linear_fault_bound (Config.mk none (some 0) none none) 2 2 0
    (fun _ => ⟨0, 0, 1, 1, Side.lt⟩) rfl).2 rfl⟩

/-- C7: the group of a cell value x is the index of the first threshold
strictly above x, the number of thresholds if no threshold exceeds x, and in
particular the value 1/2 against the single threshold 1/2 lands in the
overflow bucket 1. -/
theorem calc_groups_first_threshold (ts : List ℚ) (x : ℚ) :
    groupOf x ts ≤ ts.length
    ∧ (∀ k, k < groupOf x ts → ¬ x < ts.getD k x)
    ∧ (groupOf x ts < ts.length → x < ts.getD (groupOf x ts) x)
    ∧ ((∀ t ∈ ts, ¬ x < t) → groupOf x ts = ts.length)
    ∧ calc_groups cfgHalf [(1 : ℚ)/2] = .ok [(1 : ℚ)] := by
  refine ⟨groupOf_le_length x ts, ?_, ?_, ?_, ?_⟩
  · induction ts with
    | nil => simp [groupOf]
    | cons t ts ih =>
      intro k hk
      by_cases hx : x < t
      · simp [groupOf, hx] at hk
      · simp only [groupOf, if_neg hx] at hk
        cases k with
        | zero => simpa using hx
        | succ k => exact ih k (by omega)
  · induction ts with
    | nil => simp [groupOf]
    | cons t ts ih =>
      intro hlt
      by_cases hx : x < t
      · simpa [groupOf, hx] using hx
      · simp only [groupOf, if_neg hx] at hlt ⊢
        simpa using ih (by simpa using hlt)
  · induction ts with
    | nil => simp [groupOf]
    | cons t ts ih =>
      intro hall
      have hx : ¬ x < t := hall t (by simp)
      simp only [groupOf, if_neg hx, List.length_cons]
      have := ih (fun t ht => hall t (by simp [ht]))
      omega
  · norm_num [calc_groups, cfgHalf, groupOf]

/-- C7 witness: the characterisation applied to the concrete scenario of a
single threshold 1/2 and the cell value 1/2. -/
theorem calc_groups_first_threshold_witness :
    groupOf ((1 : ℚ)/2) [(1 : ℚ)/2] ≤ ([(1 : ℚ)/2]).length
    ∧ (∀ k, k < groupOf ((1 : ℚ)/2) [(1 : ℚ)/2] →
        ¬ (1 : ℚ)/2 < ([(1 : ℚ)/2]).getD k ((1 : ℚ)/2))
    ∧ (groupOf ((1 : ℚ)/2) [(1 : ℚ)/2] < ([(1 : ℚ)/2]).length →
        (1 : ℚ)/2 < ([(1 : ℚ)/2]).getD (groupOf ((1 : ℚ)/2) [(1 : ℚ)/2]) ((1 : ℚ)/2))
    ∧ ((∀ t ∈ [(1 : ℚ)/2], ¬ (1 : ℚ)/2 < t) →
        groupOf ((1 : ℚ)/2) [(1 : ℚ)/2] = ([(1 : ℚ)/2]).length)
    ∧ calc_groups cfgHalf [(1 : ℚ)/2] = .ok [(1 : ℚ)] :=
  calc_groups_first_threshold [(1 : ℚ)/2] ((1 : ℚ)/2)

/-- C6: each erosion round is a pure function of the start-of-round snapshot
(the new value of every cell is computed from the input field alone), the
new value of cell (i,j) is the rounding of (2 x center + sum of in-bounds
neighbors) / (2 + number of in-bounds neighbors), and that rounding is a
nearest integer of the exact weighted average. -/
theorem smooth_round_formula (w h : ℕ) (hm : List ℚ) (i j : ℕ)
    (hi : i < w) (hj : j < h) :
    (smoothRound w h hm).getD (i * h + j) 0 = specNewValue w h hm i j
    ∧ ∃ z : ℤ, (smoothRound w h hm).getD (i * h + j) 0 = (z : ℚ)
      ∧ |(z : ℚ) - (2 * readAt h hm ((i : ℤ), (j : ℤ))
            + ((specClipped w h i j).map (readAt h hm)).sum)
          / (2 + (specClipped w h i j).length)| ≤ 1/2 := by
  have h1 := smoothRound_getD w h hm i j hi hj
  have h2 := smoothCell_eq_spec w h hm i j hi hj
  refine ⟨h1.trans h2, pyRound ((2 * readAt h hm ((i : ℤ), (j : ℤ))
      + ((specClipped w h i j).map (readAt h hm)).sum)
      / (2 + (specClipped w h i j).length)), ?_, pyRound_near _⟩
  rw [h1, h2]
  rfl

/-- C6 witness: the formula applied to the single cell of a 1x1 field. -/
theorem smooth_round_formula_witness :
    (smoothRound 1 1 [(0 : ℚ)]).getD (0 * 1 + 0) 0 = specNewValue 1 1 [(0 : ℚ)] 0 0
    ∧ ∃ z : ℤ, (smoothRound 1 1 [(0 : ℚ)]).getD (0 * 1 + 0) 0 = (z : ℚ)
      ∧ |(z : ℚ) - (2 * readAt 1 [(0 : ℚ)] ((0 : ℤ), (0 : ℤ))
            + ((specClipped 1 1 0 0).map (readAt 1 [(0 : ℚ)])).sum)
          / (2 + (specClipped 1 1 0 0).length)| ≤ 1/2 :=
  smooth_round_formula 1 1 [(0 : ℚ)] 0 0 (by decide) (by decide)

/-- C5: for every config with positive dimensions and a thresholds list
present, and for every raw field of the right size (whatever strategy and
randomness produced it), the full pipeline succeeds and returns a field of
exactly width x height cells whose values are integers in
[0, len(thresholds)]. -/
theorem generate_field_invariant (cfg : Config) (w h : ℕ) (ts raw : List ℚ)
    (hts : cfg.thresholds = some (some ts)) (hw : 0 < w) (hh : 0 < h)
    (hlen : raw.length = w * h) :
    ∃ final, generate cfg w h raw = .ok final ∧ final.length = w * h
      ∧ ∀ v ∈ final, ∃ m : ℕ, v = (m : ℚ) ∧ m ≤ ts.length := by
  have hplen : (calc_percentiles raw).length = w * h := by
    rw [calc_percentiles_length, hlen]
  have hgok : calc_groups cfg (calc_percentiles raw) =
      .ok ((calc_percentiles raw).map (fun x => (groupOf x ts : ℚ))) := by
    simp [calc_groups, hts]
  set grp := (calc_percentiles raw).map (fun x => (groupOf x ts : ℚ)) with hgrp
  have hglen : grp.length = w * h := by
    rw [hgrp, List.length_map, hplen]
  have hgval : ∀ v ∈ grp, ∃ m : ℕ, v = (m : ℚ) ∧ m ≤ ts.length := by
    intro v hv
    rw [hgrp] at hv
    obtain ⟨x, _, hxe⟩ := List.mem_map.mp hv
    exact ⟨groupOf x ts, hxe.symm, groupOf_le_length x ts⟩
  refine ⟨smooth cfg w h grp, by simp [generate, hgok, hgrp, Except.map], ?_⟩
  cases he : cfg.erosion with
  | none =>
    simp only [smooth, he]
    exact ⟨hglen, hgval⟩
  | some e =>
    simp only [smooth, he]
    exact smoothIter_preserves w h ts.length e grp hh hglen hgval

/-- C5 witness: the pipeline on the 1x1 zero raw field with the single
threshold 1/2. -/
theorem generate_field_invariant_witness :
    ∃ final, generate cfgHalf 1 1 [(0 : ℚ)] = .ok final ∧ final.length = 1 * 1
      ∧ ∀ v ∈ final, ∃ m : ℕ, v = (m : ℚ) ∧ m ≤ ([(1 : ℚ)/2]).length :=
  generate_field_invariant cfgHalf 1 1 [(1 : ℚ)/2] [(0 : ℚ)] rfl
    (by decide) (by decide) rfl

end Terrain
